import Mathlib

/-!
Shallow embedding of the weighted-sampling library (`src/lib.rs`):
a cumulative-frequency table `FreqChoice` with a galloping/binary-search
lookup, a uniqueness-filtering iterator `UniqueSampler` built on a
probabilistic membership set, and a pair combiner `SamplerPair`.

Machine integers of the generic weight type `N` are embedded as `Int`
(the library instantiates `N = u64`; the construction and lookup code only
uses `zero`, `+`, `<`/`<=`, so `Int` is a faithful carrier that also
admits the negative weights the construction must reject).  Rust indexing
`self.data[i]`, which panics when out of range, is embedded as `List`
optional indexing, so a lookup returning `none` models a bounds panic.
-/

namespace JaneDoe

/-- The cumulative-frequency table `FreqChoice { data, total }` from
`src/lib.rs`: `data` stores `(cumulative_weight, item)` pairs and `total`
the final cumulative weight. -/
structure FreqChoice (T : Type) where
  data : List (Int × T)
  total : Int
deriving Repr

/-- The accumulation loop inside `FreqChoice::from_items`: walks the input
pairs keeping the running total `cumulative`, fails (returns `none`) at the
first negative frequency, and appends `(running_total, value)` to `out`. -/
def from_items_loop {T : Type} (cumulative : Int) (out : List (Int × T)) :
    List (Int × T) → Option (Int × List (Int × T))
  | [] => some (cumulative, out)
  | (freq, value) :: rest =>
    if freq < 0 then none
    else from_items_loop (cumulative + freq) (out ++ [(cumulative + freq, value)]) rest

/-- `FreqChoice::from_items` from `src/lib.rs`: accumulate the running
totals, then reject the collection when the final total is `<= 0`. -/
def from_items {T : Type} (items : List (Int × T)) : Option (FreqChoice T) :=
  match from_items_loop 0 [] items with
  | none => none
  | some (cumulative, out) =>
    if cumulative ≤ 0 then none else some ⟨out, cumulative⟩

/-- Cumulative weight stored at index `i` of a data list (`0` out of
range); proof-side accessor for stating loop invariants. -/
def cum {T : Type} (data : List (Int × T)) (i : Nat) : Int :=
  ((data[i]?).map Prod.fst).getD 0

/-- The galloping loop of `FreqChoice::sample_at`
(`while x >= self.data[ub].0 { lb = ub + 1; ub *= 2; if ub >= n { ub = n - 1; break } }`).
A `none` result models the panic of an out-of-range `self.data[ub]`. -/
def gallop {T : Type} (data : List (Int × T)) (n : Nat) (x : Int)
    (lb ub : Nat) (hub : 0 < ub) : Option (Nat × Nat) :=
  match data[ub]? with
  | none => none
  | some e =>
    if x < e.1 then some (lb, ub)
    else if h2 : n ≤ ub * 2 then some (ub + 1, n - 1)
    else gallop data n x (ub + 1) (ub * 2) (by omega)
termination_by n - ub
decreasing_by omega

/-- The binary-search loop of `FreqChoice::sample_at`
(`while lb < ub { middle = (lb + ub) / 2; if x < self.data[middle].0 { ub = middle } else { lb = middle + 1 } }`).
A `none` result models the panic of an out-of-range `self.data[middle]`. -/
def bsearch {T : Type} (data : List (Int × T)) (x : Int) (lb ub : Nat) : Option Nat :=
  if h : lb < ub then
    match data[(lb + ub) / 2]? with
    | none => none
    | some e =>
      if x < e.1 then bsearch data x lb ((lb + ub) / 2)
      else bsearch data x ((lb + ub) / 2 + 1) ub
  else some lb
termination_by ub - lb
decreasing_by
  · omega
  · omega

/-- `FreqChoice::sample_at` from `src/lib.rs`: fast path on the first
entry, then galloping search followed by binary search.  `none` models an
indexing panic anywhere along the way. -/
def sample_at {T : Type} (fc : FreqChoice T) (x : Int) : Option T :=
  match fc.data[0]? with
  | none => none
  | some e0 =>
    if x < e0.1 then some e0.2
    else
      match gallop fc.data fc.data.length x 1 1 (by omega) with
      | none => none
      | some (lb, _ub) =>
        match bsearch fc.data x lb _ub with
        | none => none
        | some i => (fc.data[i]?).map Prod.snd

/-- Smallest index of `data` whose cumulative weight exceeds `x`
(`data.length` when there is none); the specification value the lookup
must compute. -/
def leastIdx {T : Type} (x : Int) : List (Int × T) → Nat
  | [] => 0
  | (c, _) :: rest => if x < c then 0 else leastIdx x rest + 1

/-- Reference cumulative scan: `scanFreq c items` is the list of
`(c + running total, item)` pairs that `from_items` accumulates. -/
def scanFreq {T : Type} (c : Int) : List (Int × T) → List (Int × T)
  | [] => []
  | (w, v) :: rest => (c + w, v) :: scanFreq (c + w) rest

/-- Sum of the first `k` weights of an item list. -/
def psum {T : Type} (items : List (Int × T)) (k : Nat) : Int :=
  ((items.take k).map Prod.fst).sum

/-- Modelled from the spec: the probabilistic membership set realized by
the external `bloomfilter` crate (not part of this repository).  Per the
spec it is a "test-and-insert with bounded false-positive rate, zero
false-negative rate" capability: `inserted` records exactly the elements
inserted so far, and `fp` is an arbitrary oracle for spurious positives
(hash collisions), which may depend on the current contents. -/
structure Bloom (α : Type) where
  inserted : List α
  fp : List α → α → Bool

/-- Modelled from the spec: `Bloom::check_and_set` — reports whether `x`
might already be a member (true whenever `x` was inserted before, possibly
true otherwise) and inserts `x`. -/
def Bloom.check_and_set {α : Type} [DecidableEq α] (b : Bloom α) (x : α) :
    Bool × Bloom α :=
  (decide (x ∈ b.inserted) || b.fp b.inserted x, ⟨x :: b.inserted, b.fp⟩)

/-- State of `UniqueSampler` from `src/lib.rs`: the membership filter
`seen`, the `remaining` counter and the borrowed generator's state `rng`.
The borrowed `source` sampler is immutable and is passed to `next`
separately as a state-transformer `σ → α × σ` (its `sample_using`
composed with the generator). -/
structure UniqueSampler (σ α : Type) where
  seen : Bloom α
  remaining : Nat
  rng : σ

/-- The retry loop inside `UniqueSampler::next`
(`loop { let x = self.source.sample_using(self.rng); if !self.seen.check_and_set(&x) { ... return Some(x) } }`),
embedded with explicit `fuel` since the Rust loop has no iteration bound;
`none` models running out of fuel (the loop not having terminated yet). -/
def sample_loop {σ α : Type} [DecidableEq α] (source : σ → α × σ) :
    Nat → Bloom α → σ → Option (α × Bloom α × σ)
  | 0, _, _ => none
  | fuel + 1, seen, s =>
    let p := source s
    let q := seen.check_and_set p.1
    if q.1 then sample_loop source fuel q.2 p.2
    else some (p.1, q.2, p.2)

/-- `UniqueSampler::next` from `src/lib.rs`: `None` when `remaining == 0`,
otherwise retry-sample until the filter reports a fresh item, record it,
and decrement `remaining`.  The outer `Option` is the fuel bound of
`sample_loop` (`none` = still looping); the inner `Option α` is the
iterator's yield. -/
def UniqueSampler.next {σ α : Type} [DecidableEq α] (source : σ → α × σ)
    (fuel : Nat) (st : UniqueSampler σ α) :
    Option (Option α × UniqueSampler σ α) :=
  if st.remaining = 0 then some (none, st)
  else
    match sample_loop source fuel st.seen st.rng with
    | none => none
    | some (x, seen1, s1) => some (some x, ⟨seen1, st.remaining - 1, s1⟩)

/-- `UniqueSampler::new` from `src/lib.rs`: fresh filter (sized for the
requested count — size does not affect the membership contract), counter
set to `count`, generator state as given. -/
def UniqueSampler.new {σ α : Type} (fp : List α → α → Bool) (count : Nat)
    (rng : σ) : UniqueSampler σ α :=
  ⟨⟨[], fp⟩, count, rng⟩

/-- Drive the iterator `k` steps, collecting each step's yield. -/
def UniqueSampler.run {σ α : Type} [DecidableEq α] (source : σ → α × σ)
    (fuel : Nat) : Nat → UniqueSampler σ α →
    Option (List (Option α) × UniqueSampler σ α)
  | 0, st => some ([], st)
  | k + 1, st =>
    match UniqueSampler.next source fuel st with
    | none => none
    | some (o, st1) =>
      match UniqueSampler.run source fuel k st1 with
      | none => none
      | some (outs, st2) => some (o :: outs, st2)

/-- A random generator: `gen_range lo hi` draws from the state.  The
`rand` crate's contract (result lies in `[lo, hi)` when the range is
nonempty) is the separate predicate `RngValid`. -/
structure Rng (σ : Type) where
  gen_range : Int → Int → σ → Int × σ

/-- Contract of `Rng::gen_range(lo..hi)`: the drawn value lies in
`[lo, hi)` whenever `lo < hi`. -/
def RngValid {σ : Type} (r : Rng σ) : Prop :=
  ∀ lo hi s, lo < hi →
    lo ≤ (r.gen_range lo hi s).1 ∧ (r.gen_range lo hi s).1 < hi

/-- `<FreqChoice as SampleFrom>::sample_using` from `src/lib.rs`:
`self.sample_at(rng.gen_range(N::zero() .. self.total))`, with the
generator state threaded explicitly. -/
def FreqChoice.sample_using {σ T : Type} (fc : FreqChoice T) (r : Rng σ)
    (s : σ) : Option T × σ :=
  let p := r.gen_range 0 fc.total s
  (sample_at fc p.1, p.2)

/-- `<SamplerPair as SampleFrom>::sample_using` from `src/lib.rs`:
`(self.combiner)(self.first.sample_using(rng), self.second.sample_using(rng))`.
Rust evaluates the first draw, then the second with the same (mutated)
generator; held samplers are embedded as state-transformers whose `none`
result models a panic, which aborts the whole call. -/
def SamplerPair.sample_using {σ α β γ : Type}
    (first : σ → Option α × σ) (second : σ → Option β × σ)
    (combiner : α → β → γ) (s : σ) : Option γ × σ :=
  match first s with
  | (none, s1) => (none, s1)
  | (some a, s1) =>
    match second s1 with
    | (none, s2) => (none, s2)
    | (some b, s2) => (some (combiner a b), s2)

/-- The construction-error taxonomy of the spec (§7). -/
inductive ConstructionError where
  | NegativeWeight
  | EmptyOrNonPositive
deriving DecidableEq, Repr

/-- Modelled from the spec: `WeightedTable::build` (§4.1), the spec's
error-reporting refinement of `from_items` — fail immediately with
`NegativeWeight` at the first negative weight, store running totals, and
fail with `EmptyOrNonPositive` when the final total is `<= 0`.  Used to
compare the spec's claimed error reporting with the code's `Option`. -/
def buildSpecLoop {T : Type} (c : Int) (out : List (Int × T)) :
    List (Int × T) → Except ConstructionError (Int × List (Int × T))
  | [] => .ok (c, out)
  | (w, v) :: rest =>
    if w < 0 then .error .NegativeWeight
    else buildSpecLoop (c + w) (out ++ [(c + w, v)]) rest

/-- Modelled from the spec: see `buildSpecLoop`. -/
def buildSpec {T : Type} (items : List (Int × T)) :
    Except ConstructionError (FreqChoice T) :=
  match buildSpecLoop 0 [] items with
  | .error e => .error e
  | .ok (c, out) =>
    if c ≤ 0 then .error .EmptyOrNonPositive else .ok ⟨out, c⟩

/-! ### Characterization of `from_items` -/

theorem from_items_loop_ok {T : Type} (l : List (Int × T))
    (hnn : ∀ p ∈ l, 0 ≤ p.1) (c : Int) (out : List (Int × T)) :
    from_items_loop c out l =
      some (c + (l.map Prod.fst).sum, out ++ scanFreq c l) := by
  induction l generalizing c out with
  | nil => simp [from_items_loop, scanFreq]
  | cons p rest ih =>
    obtain ⟨w, v⟩ := p
    have hw : 0 ≤ w := hnn (w, v) (by simp)
    have hrest : ∀ q ∈ rest, 0 ≤ q.1 := fun q hq => hnn q (by simp [hq])
    simp only [from_items_loop, scanFreq]
    rw [if_neg (by omega), ih hrest]
    simp [add_assoc, List.append_assoc]

theorem from_items_loop_neg {T : Type} (l : List (Int × T))
    (hneg : ∃ p ∈ l, p.1 < 0) (c : Int) (out : List (Int × T)) :
    from_items_loop c out l = none := by
  induction l generalizing c out with
  | nil => simp at hneg
  | cons p rest ih =>
    obtain ⟨w, v⟩ := p
    by_cases hw : w < 0
    · simp [from_items_loop, hw]
    · have hrest : ∃ q ∈ rest, q.1 < 0 := by
        rcases hneg with ⟨q, hq, hqn⟩
        rcases List.mem_cons.mp hq with h | h
        · rw [h] at hqn; exact absurd hqn hw
        · exact ⟨q, h, hqn⟩
      simp [from_items_loop, hw, ih hrest]

theorem from_items_eq_of_nonneg {T : Type} (items : List (Int × T))
    (hnn : ∀ p ∈ items, 0 ≤ p.1) :
    from_items items =
      if (items.map Prod.fst).sum ≤ 0 then none
      else some ⟨scanFreq 0 items, (items.map Prod.fst).sum⟩ := by
  unfold from_items
  rw [from_items_loop_ok items hnn 0 []]
  simp

theorem from_items_some_inv {T : Type} {items : List (Int × T)}
    {fc : FreqChoice T} (hf : from_items items = some fc) :
    (∀ p ∈ items, 0 ≤ p.1) ∧ 0 < (items.map Prod.fst).sum ∧
      fc.data = scanFreq 0 items ∧ fc.total = (items.map Prod.fst).sum := by
  have hnn : ∀ p ∈ items, 0 ≤ p.1 := by
    by_contra hc
    push_neg at hc
    obtain ⟨p, hp, hpneg⟩ := hc
    have hnone : from_items items = none := by
      unfold from_items
      rw [from_items_loop_neg items ⟨p, hp, by omega⟩ 0 []]
    rw [hnone] at hf
    cases hf
  rw [from_items_eq_of_nonneg items hnn] at hf
  by_cases hs : (items.map Prod.fst).sum ≤ 0
  · rw [if_pos hs] at hf; cases hf
  · rw [if_neg hs] at hf
    cases hf
    exact ⟨hnn, by omega, rfl, rfl⟩

/-! ### The cumulative scan and partial sums -/

theorem length_scanFreq {T : Type} (l : List (Int × T)) (c : Int) :
    (scanFreq c l).length = l.length := by
  induction l generalizing c with
  | nil => rfl
  | cons p rest ih =>
    obtain ⟨w, v⟩ := p
    simp [scanFreq, ih]

theorem psum_zero {T : Type} (items : List (Int × T)) : psum items 0 = 0 := rfl

theorem psum_succ {T : Type} (items : List (Int × T)) (k : Nat) :
    psum items (k + 1) = psum items k + ((items[k]?).map Prod.fst).getD 0 := by
  induction items generalizing k with
  | nil => simp [psum]
  | cons p rest ih =>
    cases k with
    | zero => simp [psum]
    | succ k =>
      have h1 : psum (p :: rest) (k + 2) = p.1 + psum rest (k + 1) := by
        simp [psum, List.take_succ_cons]
      have h2 : psum (p :: rest) (k + 1) = p.1 + psum rest k := by
        simp [psum, List.take_succ_cons]
      rw [h1, h2, ih]
      simp [add_assoc]

theorem scanFreq_getElem? {T : Type} (l : List (Int × T)) (c : Int) (i : Nat) :
    (scanFreq c l)[i]? = (l[i]?).map (fun p => (c + psum l (i + 1), p.2)) := by
  induction l generalizing c i with
  | nil => simp [scanFreq]
  | cons p rest ih =>
    obtain ⟨w, v⟩ := p
    cases i with
    | zero => simp [scanFreq, psum]
    | succ i =>
      simp only [scanFreq, List.getElem?_cons_succ]
      rw [ih]
      cases h : rest[i]? with
      | none => simp
      | some q =>
        simp only [Option.map_some']
        have hps : c + w + psum rest (i + 1) = c + psum ((w, v) :: rest) (i + 2) := by
          simp [psum, List.take_succ_cons]
          ring
        rw [hps]

theorem psum_nonneg {T : Type} {items : List (Int × T)}
    (hnn : ∀ p ∈ items, 0 ≤ p.1) (k : Nat) : 0 ≤ psum items k := by
  apply List.sum_nonneg
  intro x hx
  obtain ⟨p, hp, rfl⟩ := List.mem_map.mp hx
  exact hnn p (List.take_subset k items hp)

theorem psum_mono {T : Type} {items : List (Int × T)}
    (hnn : ∀ p ∈ items, 0 ≤ p.1) : Monotone (psum items) := by
  apply monotone_nat_of_le_succ
  intro k
  rw [psum_succ]
  have h0 : 0 ≤ ((items[k]?).map Prod.fst).getD 0 := by
    cases h : items[k]? with
    | none => simp
    | some p =>
      simpa using hnn p (List.getElem?_mem h)
  omega

theorem psum_length {T : Type} (items : List (Int × T)) :
    psum items items.length = (items.map Prod.fst).sum := by
  simp [psum, List.take_length]

/-! ### Facts about a successfully built table -/

theorem table_data_length {T : Type} {items : List (Int × T)}
    {fc : FreqChoice T} (hf : from_items items = some fc) :
    fc.data.length = items.length := by
  rw [(from_items_some_inv hf).2.2.1, length_scanFreq]

theorem table_cum {T : Type} {items : List (Int × T)} {fc : FreqChoice T}
    (hf : from_items items = some fc) {i : Nat} (hi : i < items.length) :
    cum fc.data i = psum items (i + 1) := by
  obtain ⟨-, -, hdata, -⟩ := from_items_some_inv hf
  rw [cum, hdata, scanFreq_getElem?]
  rw [List.getElem?_eq_getElem hi]
  simp

theorem table_items_ne_nil {T : Type} {items : List (Int × T)}
    {fc : FreqChoice T} (hf : from_items items = some fc) : items ≠ [] := by
  obtain ⟨-, hpos, -, -⟩ := from_items_some_inv hf
  intro h
  rw [h] at hpos
  simp at hpos

theorem table_data_ne_nil {T : Type} {items : List (Int × T)}
    {fc : FreqChoice T} (hf : from_items items = some fc) : fc.data ≠ [] := by
  have hlen := table_data_length hf
  have hne := table_items_ne_nil hf
  intro h
  rw [h] at hlen
  exact hne (List.length_eq_zero.mp hlen.symm)

theorem table_mono {T : Type} {items : List (Int × T)} {fc : FreqChoice T}
    (hf : from_items items = some fc) :
    ∀ i j, i ≤ j → j < fc.data.length → cum fc.data i ≤ cum fc.data j := by
  intro i j hij hj
  obtain ⟨hnn, -, -, -⟩ := from_items_some_inv hf
  rw [table_data_length hf] at hj
  rw [table_cum hf (lt_of_le_of_lt hij hj), table_cum hf hj]
  exact psum_mono hnn (by omega)

theorem table_total {T : Type} {items : List (Int × T)} {fc : FreqChoice T}
    (hf : from_items items = some fc) :
    fc.total = psum items items.length := by
  rw [(from_items_some_inv hf).2.2.2, psum_length]

theorem table_cum_last {T : Type} {items : List (Int × T)} {fc : FreqChoice T}
    (hf : from_items items = some fc) :
    cum fc.data (fc.data.length - 1) = fc.total := by
  have hne := table_items_ne_nil hf
  have hlen : 0 < items.length := List.length_pos.mpr hne
  rw [table_data_length hf, table_cum hf (by omega), table_total hf]
  congr 1
  omega

theorem table_snd {T : Type} {items : List (Int × T)} {fc : FreqChoice T}
    (hf : from_items items = some fc) (i : Nat) :
    (fc.data[i]?).map Prod.snd = (items[i]?).map Prod.snd := by
  obtain ⟨-, -, hdata, -⟩ := from_items_some_inv hf
  rw [hdata, scanFreq_getElem?]
  cases h : items[i]? <;> simp

/-! ### The smallest index whose cumulative weight exceeds the offset -/

theorem leastIdx_le_length {T : Type} (x : Int) (data : List (Int × T)) :
    leastIdx x data ≤ data.length := by
  induction data with
  | nil => simp [leastIdx]
  | cons p rest ih =>
    obtain ⟨c, v⟩ := p
    simp only [leastIdx]
    split
    · simp
    · simpa using ih

theorem cum_cons_zero {T : Type} (p : Int × T) (rest : List (Int × T)) :
    cum (p :: rest) 0 = p.1 := by
  simp [cum]

theorem cum_cons_succ {T : Type} (p : Int × T) (rest : List (Int × T))
    (i : Nat) : cum (p :: rest) (i + 1) = cum rest i := by
  simp [cum, List.getElem?_cons_succ]

theorem lt_cum_leastIdx {T : Type} {x : Int} {data : List (Int × T)}
    (h : leastIdx x data < data.length) : x < cum data (leastIdx x data) := by
  induction data with
  | nil => simp at h
  | cons p rest ih =>
    obtain ⟨c, v⟩ := p
    simp only [leastIdx] at h ⊢
    split
    · next hx => simpa [cum_cons_zero] using hx
    · next hx =>
      rw [if_neg hx] at h
      simp only [List.length_cons] at h
      rw [cum_cons_succ]
      exact ih (by omega)

theorem cum_le_of_lt_leastIdx {T : Type} {x : Int} {data : List (Int × T)}
    {j : Nat} (h : j < leastIdx x data) : cum data j ≤ x := by
  induction data generalizing j with
  | nil => simp [leastIdx] at h
  | cons p rest ih =>
    obtain ⟨c, v⟩ := p
    simp only [leastIdx] at h
    by_cases hx : x < c
    · rw [if_pos hx] at h
      omega
    · rw [if_neg hx] at h
      cases j with
      | zero => rw [cum_cons_zero]; omega
      | succ j =>
        rw [cum_cons_succ]
        exact ih (by omega)

theorem leastIdx_eq {T : Type} {x : Int} {data : List (Int × T)} {i : Nat}
    (hi : i < data.length) (h1 : x < cum data i)
    (h2 : ∀ j, j < i → cum data j ≤ x) : leastIdx x data = i := by
  have hle := leastIdx_le_length x data
  rcases lt_trichotomy (leastIdx x data) i with h | h | h
  · have := lt_cum_leastIdx (lt_of_lt_of_le (lt_of_lt_of_le h (le_of_lt hi)) (le_refl _))
    exact absurd (h2 _ h) (by omega)
  · exact h
  · exact absurd (cum_le_of_lt_leastIdx h) (by omega)

theorem leastIdx_lt_length {T : Type} {x : Int} {data : List (Int × T)}
    (hne : data ≠ []) (hx : x < cum data (data.length - 1)) :
    leastIdx x data < data.length := by
  have hle := leastIdx_le_length x data
  have hlen : 0 < data.length := List.length_pos.mpr hne
  rcases Nat.lt_or_ge (leastIdx x data) data.length with h | h
  · exact h
  · have heq : leastIdx x data = data.length := by omega
    have hj : data.length - 1 < leastIdx x data := by omega
    have := cum_le_of_lt_leastIdx hj
    omega

/-! ### Correctness of the galloping and binary-search loops -/

theorem cum_eq_getElem {T : Type} {data : List (Int × T)} {i : Nat}
    (hi : i < data.length) : cum data i = (data[i]).1 := by
  simp [cum, List.getElem?_eq_getElem hi]

theorem gallop_spec {T : Type} (data : List (Int × T)) (x : Int)
    (hx : x < cum data (data.length - 1)) :
    ∀ (d lb ub : Nat) (hub : 0 < ub), data.length - ub ≤ d →
      1 ≤ lb → lb ≤ ub → ub < data.length → cum data (lb - 1) ≤ x →
      ∃ lb2 ub2, gallop data data.length x lb ub hub = some (lb2, ub2) ∧
        1 ≤ lb2 ∧ lb2 ≤ ub2 ∧ ub2 < data.length ∧
        cum data (lb2 - 1) ≤ x ∧ x < cum data ub2 := by
  intro d
  induction d with
  | zero =>
    intro lb ub hub hd h1 h2 h3 h4
    exact absurd h3 (by omega)
  | succ d ih =>
    intro lb ub hub hd h1 h2 h3 h4
    rw [gallop]
    rw [List.getElem?_eq_getElem h3]
    simp only
    by_cases hxe : x < (data[ub]).1
    · rw [if_pos hxe]
      exact ⟨lb, ub, rfl, h1, h2, h3, h4, by rw [cum_eq_getElem h3]; exact hxe⟩
    · rw [if_neg hxe]
      have hcub : cum data ub ≤ x := by rw [cum_eq_getElem h3]; omega
      have hubne : ub < data.length - 1 := by
        rcases Nat.lt_or_ge ub (data.length - 1) with h | h
        · exact h
        · have : ub = data.length - 1 := by omega
          rw [this] at hcub
          omega
      by_cases h2d : data.length ≤ ub * 2
      · rw [dif_pos h2d]
        refine ⟨ub + 1, data.length - 1, rfl, by omega, by omega, by omega, ?_, hx⟩
        simpa using hcub
      · rw [dif_neg h2d]
        have := ih (ub + 1) (ub * 2) (by omega) (by omega) (by omega) (by omega)
          (by omega) (by simpa using hcub)
        exact this

theorem bsearch_spec {T : Type} (data : List (Int × T)) (x : Int) :
    ∀ (d lb ub : Nat), ub - lb ≤ d →
      1 ≤ lb → lb ≤ ub → ub < data.length →
      cum data (lb - 1) ≤ x → x < cum data ub →
      ∃ i, bsearch data x lb ub = some i ∧ 1 ≤ i ∧ lb ≤ i ∧ i ≤ ub ∧
        cum data (i - 1) ≤ x ∧ x < cum data i := by
  intro d
  induction d with
  | zero =>
    intro lb ub hd h1 h2 h3 h4 h5
    have heq : lb = ub := by omega
    subst heq
    rw [bsearch, dif_neg (by omega)]
    exact ⟨lb, rfl, h1, le_refl _, le_refl _, h4, h5⟩
  | succ d ih =>
    intro lb ub hd h1 h2 h3 h4 h5
    by_cases hlt : lb < ub
    · rw [bsearch, dif_pos hlt]
      have hm1 : lb ≤ (lb + ub) / 2 := by omega
      have hm2 : (lb + ub) / 2 < ub := by omega
      have hmn : (lb + ub) / 2 < data.length := by omega
      rw [List.getElem?_eq_getElem hmn]
      simp only
      by_cases hxm : x < (data[(lb + ub) / 2]).1
      · rw [if_pos hxm]
        obtain ⟨i, hb, hb1, hb2, hb3, hb4, hb5⟩ :=
          ih lb ((lb + ub) / 2) (by omega) h1 hm1 (by omega) h4
            (by rw [cum_eq_getElem hmn]; exact hxm)
        exact ⟨i, hb, hb1, hb2, by omega, hb4, hb5⟩
      · rw [if_neg hxm]
        have hcm : cum data ((lb + ub) / 2) ≤ x := by
          rw [cum_eq_getElem hmn]; omega
        obtain ⟨i, hb, hb1, hb2, hb3, hb4, hb5⟩ :=
          ih ((lb + ub) / 2 + 1) ub (by omega) (by omega) (by omega) h3
            (by simpa using hcm) h5
        exact ⟨i, hb, hb1, by omega, hb3, hb4, hb5⟩
    · have heq : lb = ub := by omega
      subst heq
      rw [bsearch, dif_neg (by omega)]
      exact ⟨lb, rfl, h1, le_refl _, le_refl _, h4, h5⟩

/-- Main lookup lemma: on a non-empty table with non-decreasing cumulative
weights, for any offset below the last cumulative weight, `sample_at`
returns the item at the smallest index whose cumulative weight exceeds the
offset, and that index is in range. -/
theorem sample_at_spec {T : Type} (fc : FreqChoice T) (hne : fc.data ≠ [])
    (mono : ∀ i j, i ≤ j → j < fc.data.length → cum fc.data i ≤ cum fc.data j)
    (x : Int) (hx : x < cum fc.data (fc.data.length - 1)) :
    sample_at fc x = (fc.data[leastIdx x fc.data]?).map Prod.snd ∧
      leastIdx x fc.data < fc.data.length := by
  have hlen : 0 < fc.data.length := List.length_pos.mpr hne
  have h0 : fc.data[0]? = some (fc.data[0]) := List.getElem?_eq_getElem hlen
  unfold sample_at
  rw [h0]
  simp only
  by_cases hfast : x < (fc.data[0]).1
  · rw [if_pos hfast]
    have hL : leastIdx x fc.data = 0 :=
      leastIdx_eq hlen (by rw [cum_eq_getElem hlen]; exact hfast) (by omega)
    rw [hL, h0]
    exact ⟨rfl, by omega⟩
  · rw [if_neg hfast]
    have hge : cum fc.data 0 ≤ x := by rw [cum_eq_getElem hlen]; omega
    have hn2 : 2 ≤ fc.data.length := by
      by_contra hc
      have h1 : fc.data.length = 1 := by omega
      rw [h1] at hx
      simp at hx
      omega
    obtain ⟨lb2, ub2, hg, hg1, hg2, hg3, hg4, hg5⟩ :=
      gallop_spec fc.data x hx fc.data.length 1 1 (by omega) (by omega)
        (by omega) (by omega) (by omega) (by simpa using hge)
    rw [hg]
    simp only
    obtain ⟨i, hb, hb1, hb2, hb3, hb4, hb5⟩ :=
      bsearch_spec fc.data x (ub2 - lb2) lb2 ub2 (by omega) hg1 hg2 hg3 hg4 hg5
    rw [hb]
    simp only
    have hi : i < fc.data.length := by omega
    have hL : leastIdx x fc.data = i := by
      apply leastIdx_eq hi hb5
      intro j hj
      calc cum fc.data j ≤ cum fc.data (i - 1) := mono j (i - 1) (by omega) (by omega)
        _ ≤ x := hb4
    rw [hL]
    exact ⟨rfl, hi⟩

/-- On a built table the lookup index `leastIdx` lands in `[psum i, psum (i+1))`
exactly for index `i`. -/
theorem table_leastIdx_iff {T : Type} {items : List (Int × T)}
    {fc : FreqChoice T} (hf : from_items items = some fc) {x : Int}
    (hx0 : 0 ≤ x) (hxt : x < fc.total) {i : Nat} (hi : i < items.length) :
    leastIdx x fc.data = i ↔ psum items i ≤ x ∧ x < psum items (i + 1) := by
  obtain ⟨hnn, hpos, hdata, htot⟩ := from_items_some_inv hf
  have hdl := table_data_length hf
  have hxlast : x < cum fc.data (fc.data.length - 1) := by
    rw [table_cum_last hf]; exact hxt
  have hLlt : leastIdx x fc.data < fc.data.length :=
    leastIdx_lt_length (table_data_ne_nil hf) hxlast
  constructor
  · rintro rfl
    refine ⟨?_, ?_⟩
    · rcases Nat.eq_zero_or_pos (leastIdx x fc.data) with h0 | hp
      · rw [h0, psum_zero]; exact hx0
      · have hk : cum fc.data (leastIdx x fc.data - 1) ≤ x :=
          cum_le_of_lt_leastIdx (by omega)
        rw [table_cum hf (by omega)] at hk
        have heq : leastIdx x fc.data - 1 + 1 = leastIdx x fc.data := by omega
        rwa [heq] at hk
    · have hlt := lt_cum_leastIdx hLlt
      rwa [table_cum hf (by omega)] at hlt
  · rintro ⟨hlo, hhi⟩
    apply leastIdx_eq (by omega)
    · rw [table_cum hf hi]; exact hhi
    · intro j hj
      rw [table_cum hf (by omega)]
      calc psum items (j + 1) ≤ psum items i := psum_mono hnn (by omega)
        _ ≤ x := hlo

/-- On a built table, for each valid offset the lookup returns the item of
the input list at index `leastIdx`, which is in range. -/
theorem table_sample_at {T : Type} {items : List (Int × T)}
    {fc : FreqChoice T} (hf : from_items items = some fc) {x : Int}
    (hxt : x < fc.total) :
    sample_at fc x = (items[leastIdx x fc.data]?).map Prod.snd ∧
      leastIdx x fc.data < items.length := by
  have hxlast : x < cum fc.data (fc.data.length - 1) := by
    rw [table_cum_last hf]; exact hxt
  obtain ⟨hs, hlt⟩ :=
    sample_at_spec fc (table_data_ne_nil hf) (table_mono hf) x hxlast
  rw [table_data_length hf] at hlt
  exact ⟨by rw [hs, table_snd hf], hlt⟩

/-- Counting lemma: on a built table with pairwise-distinct items, the
offsets in `[0, total)` that map to the `i`-th item form exactly the
interval `[psum i, psum (i+1))`, whose size is the `i`-th weight. -/
theorem table_filter_card {T : Type} [DecidableEq T]
    {items : List (Int × T)} {fc : FreqChoice T}
    (hf : from_items items = some fc)
    (hnodup : (items.map Prod.snd).Nodup) {i : Nat} (hi : i < items.length) :
    ((Finset.Ico (0 : Int) fc.total).filter
        (fun x => sample_at fc x = some ((items[i]).2))).card
      = ((items[i]).1).toNat := by
  obtain ⟨hnn, hpos, hdata, htot⟩ := from_items_some_inv hf
  have hflt : (Finset.Ico (0 : Int) fc.total).filter
      (fun x => sample_at fc x = some ((items[i]).2))
      = Finset.Ico (psum items i) (psum items (i + 1)) := by
    ext x
    simp only [Finset.mem_filter, Finset.mem_Ico]
    constructor
    · rintro ⟨⟨hx0, hxt⟩, hsx⟩
      obtain ⟨hs, hlt⟩ := table_sample_at hf hxt
      rw [hs, List.getElem?_eq_getElem hlt] at hsx
      simp only [Option.map_some', Option.some.injEq] at hsx
      have hLi : leastIdx x fc.data = i := by
        have hlt2 : leastIdx x fc.data < (items.map Prod.snd).length := by
          simpa using hlt
        have hi2 : i < (items.map Prod.snd).length := by simpa using hi
        have h1 : (items.map Prod.snd)[leastIdx x fc.data]
            = (items.map Prod.snd)[i] := by
          simp only [List.getElem_map]
          exact hsx
        exact hnodup.getElem_inj_iff.mp h1
      exact (table_leastIdx_iff hf hx0 hxt hi).mp hLi
    · rintro ⟨hlo, hhi⟩
      have hx0 : 0 ≤ x := le_trans (psum_nonneg hnn i) hlo
      have hxt : x < fc.total := by
        have : psum items (i + 1) ≤ psum items items.length :=
          psum_mono hnn (by omega)
        rw [table_total hf]
        omega
      have hLi : leastIdx x fc.data = i :=
        (table_leastIdx_iff hf hx0 hxt hi).mpr ⟨hlo, hhi⟩
      obtain ⟨hs, hlt⟩ := table_sample_at hf hxt
      refine ⟨⟨hx0, hxt⟩, ?_⟩
      rw [hs, hLi, List.getElem?_eq_getElem hi]
      rfl
  rw [hflt, Int.card_Ico]
  rw [psum_succ items i, List.getElem?_eq_getElem hi]
  simp

/-! ### Invariants of the unique-sampling iterator -/

/-- The retry loop only ever returns an item that was not in the filter
when the loop started, records it, and never removes recorded items. -/
theorem sample_loop_spec {σ α : Type} [DecidableEq α] (source : σ → α × σ) :
    ∀ (fuel : Nat) (seen : Bloom α) (s : σ) (x : α) (seen1 : Bloom α) (s1 : σ),
      sample_loop source fuel seen s = some (x, seen1, s1) →
      x ∉ seen.inserted ∧ x ∈ seen1.inserted ∧
        ∀ y ∈ seen.inserted, y ∈ seen1.inserted := by
  intro fuel
  induction fuel with
  | zero => intro seen s x seen1 s1 h; cases h
  | succ fuel ih =>
    intro seen s x seen1 s1 h
    simp only [sample_loop, Bloom.check_and_set] at h
    split at h
    · next hit =>
      obtain ⟨h1, h2, h3⟩ := ih _ _ _ _ _ h
      refine ⟨fun hx => h1 (by simp [hx]), h2, fun y hy => h3 y (by simp [hy])⟩
    · next miss =>
      simp only [Bool.or_eq_true, decide_eq_true_eq, not_or] at miss
      cases h
      exact ⟨miss.1, by simp, fun y hy => by simp [hy]⟩

/-- One `next` step: either the iterator was exhausted and nothing
changes, or it yields an item unseen before the call, records it and
decrements `remaining`. -/
theorem next_spec {σ α : Type} [DecidableEq α] {source : σ → α × σ}
    {fuel : Nat} {st st1 : UniqueSampler σ α} {o : Option α}
    (h : UniqueSampler.next source fuel st = some (o, st1)) :
    (o = none ∧ st1 = st ∧ st.remaining = 0) ∨
      (∃ x, o = some x ∧ x ∉ st.seen.inserted ∧ x ∈ st1.seen.inserted ∧
        (∀ y ∈ st.seen.inserted, y ∈ st1.seen.inserted) ∧
        st1.remaining = st.remaining - 1 ∧ st.remaining ≠ 0) := by
  unfold UniqueSampler.next at h
  split at h
  · next hrem =>
    left
    cases h
    exact ⟨rfl, rfl, hrem⟩
  · next hrem =>
    right
    cases hsl : sample_loop source fuel st.seen st.rng with
    | none => rw [hsl] at h; cases h
    | some r =>
      obtain ⟨x, seen1, s1⟩ := r
      rw [hsl] at h
      cases h
      obtain ⟨h1, h2, h3⟩ := sample_loop_spec source fuel st.seen st.rng x seen1 s1 hsl
      exact ⟨x, rfl, h1, h2, h3, rfl, hrem⟩

/-- Invariant of a `k`-step run: the yielded items are pairwise distinct,
were all unseen at the start, recorded items persist, and the number of
yields equals the drop in `remaining`. -/
theorem run_spec {σ α : Type} [DecidableEq α] (source : σ → α × σ)
    (fuel : Nat) :
    ∀ (k : Nat) (st : UniqueSampler σ α) (outs : List (Option α))
      (st2 : UniqueSampler σ α),
      UniqueSampler.run source fuel k st = some (outs, st2) →
      (outs.filterMap id).Nodup ∧
        (∀ y ∈ outs.filterMap id, y ∉ st.seen.inserted) ∧
        (∀ y ∈ st.seen.inserted, y ∈ st2.seen.inserted) ∧
        st2.remaining + (outs.filterMap id).length = st.remaining := by
  intro k
  induction k with
  | zero =>
    intro st outs st2 h
    cases h
    simp
  | succ k ih =>
    intro st outs st2 h
    simp only [UniqueSampler.run] at h
    cases hn : UniqueSampler.next source fuel st with
    | none => rw [hn] at h; cases h
    | some r =>
      obtain ⟨o, st1⟩ := r
      rw [hn] at h
      dsimp only at h
      cases hr : UniqueSampler.run source fuel k st1 with
      | none => rw [hr] at h; cases h
      | some rr =>
        obtain ⟨outs1, st2x⟩ := rr
        rw [hr] at h
        simp only [Option.some.injEq, Prod.mk.injEq] at h
        obtain ⟨hout, hst2⟩ := h
        subst hout
        subst hst2
        obtain ⟨ih1, ih2, ih3, ih4⟩ := ih st1 outs1 st2x hr
        rcases next_spec hn with ⟨ho, hst, hrem⟩ | ⟨x, ho, hx1, hx2, hx3, hrem, hne⟩
        · subst ho
          subst hst
          exact ⟨by simpa using ih1, by simpa using ih2, ih3,
            by simpa [hrem] using ih4⟩
        · subst ho
          have hfm : (some x :: outs1).filterMap id = x :: outs1.filterMap id := by
            simp
          refine ⟨?_, ?_, ?_, ?_⟩
          · rw [hfm]
            refine List.Nodup.cons ?_ ih1
            intro hmem
            exact ih2 x hmem hx2
          · rw [hfm]
            intro y hy
            rcases List.mem_cons.mp hy with h | h
            · rw [h]; exact hx1
            · intro hy2
              exact ih2 y h (hx3 y hy2)
          · intro y hy
            exact ih3 y (hx3 y hy)
          · rw [hfm]
            simp only [List.length_cons]
            omega

/-! ### Auxiliary facts for the claims -/

theorem wsum_pos {T : Type} {items : List (Int × T)}
    (hnn : ∀ p ∈ items, 0 ≤ p.1) (hpos : ∃ p ∈ items, 0 < p.1) :
    0 < (items.map Prod.fst).sum := by
  obtain ⟨p, hp, hppos⟩ := hpos
  have hmem : p.1 ∈ items.map Prod.fst := List.mem_map_of_mem _ hp
  have hall : ∀ x ∈ items.map Prod.fst, 0 ≤ x := by
    intro x hx
    obtain ⟨q, hq, rfl⟩ := List.mem_map.mp hx
    exact hnn q hq
  exact lt_of_lt_of_le hppos (List.single_le_sum hall _ hmem)

/-! ### The claims -/

/-- C1: for every table successfully built by `from_items`, `sample_at x`
for every integer offset `x` in `[0, total)` returns an item — namely the
item of the input list at `leastIdx x`, the smallest index whose cumulative
weight exceeds `x` (witnessed by the two `cum` conjuncts) — and (for
pairwise-distinct items) the set of offsets in `[0, total)` mapping to the
`i`-th item has size exactly the `i`-th original weight. -/
theorem C1_lookup_coverage {T : Type} [DecidableEq T]
    (items : List (Int × T)) (fc : FreqChoice T)
    (hf : from_items items = some fc)
    (hnodup : (items.map Prod.snd).Nodup) :
    (∀ x : Int, 0 ≤ x → x < fc.total →
      (∃ p, items[leastIdx x fc.data]? = some p ∧ sample_at fc x = some p.2) ∧
        x < cum fc.data (leastIdx x fc.data) ∧
        (∀ j, j < leastIdx x fc.data → cum fc.data j ≤ x)) ∧
    (∀ (i : Nat) (hi : i < items.length),
      ((Finset.Ico (0 : Int) fc.total).filter
          (fun x => sample_at fc x = some ((items[i]).2))).card
        = ((items[i]).1).toNat) := by
  constructor
  · intro x hx0 hxt
    obtain ⟨hs, hlt⟩ := table_sample_at hf hxt
    have hltd : leastIdx x fc.data < fc.data.length := by
      rw [table_data_length hf]; exact hlt
    refine ⟨⟨items[leastIdx x fc.data], List.getElem?_eq_getElem hlt, ?_⟩,
      lt_cum_leastIdx hltd, fun j hj => cum_le_of_lt_leastIdx hj⟩
    rw [hs, List.getElem?_eq_getElem hlt]
    rfl
  · intro i hi
    exact table_filter_card hf hnodup hi

theorem C1_witness :
    (∃ p, ([((3 : Int), (0 : Nat)), (1, 1)][leastIdx 3
        (⟨[(3, 0), (4, 1)], 4⟩ : FreqChoice Nat).data]?) = some p ∧
      sample_at (⟨[(3, 0), (4, 1)], 4⟩ : FreqChoice Nat) 3 = some p.2) ∧
    ((Finset.Ico (0 : Int) (⟨[(3, 0), (4, 1)], 4⟩ : FreqChoice Nat).total).filter
        (fun x => sample_at (⟨[(3, 0), (4, 1)], 4⟩ : FreqChoice Nat) x
          = some (([((3 : Int), (0 : Nat)), (1, 1)][0]).2))).card
      = (([((3 : Int), (0 : Nat)), (1, 1)][0]).1).toNat := by
  have h := C1_lookup_coverage [((3 : Int), (0 : Nat)), (1, 1)]
    ⟨[(3, 0), (4, 1)], 4⟩ rfl (by decide)
  exact ⟨(h.1 3 (by decide) (by decide)).1, h.2 0 (by decide)⟩

/-- C3: any input with at least one positive weight and no negative
weights makes `from_items` succeed, with `total` the sum of all weights. -/
theorem C3_build_validity {T : Type} (items : List (Int × T))
    (hnn : ∀ p ∈ items, 0 ≤ p.1) (hpos : ∃ p ∈ items, 0 < p.1) :
    ∃ fc, from_items items = some fc ∧
      fc.total = (items.map Prod.fst).sum := by
  have hsum := wsum_pos hnn hpos
  rw [from_items_eq_of_nonneg items hnn, if_neg (by omega)]
  exact ⟨_, rfl, rfl⟩

theorem C3_witness :
    ∃ fc, from_items [((3 : Int), "a"), (1, "b")] = some fc ∧
      fc.total = ([((3 : Int), "a"), (1, "b")].map Prod.fst).sum :=
  C3_build_validity _ (by decide) (by decide)

/-- C5: on a successfully built table, `sample_at` never goes out of
bounds for any offset in `[0, total)`: since every Rust indexing
`self.data[_]` (fast path, galloping loop, binary-search loop, final
access) is embedded as an optional lookup whose failure makes the result
`none`, `isSome` states that every access was in range. -/
theorem C5_lookup_safety {T : Type} (items : List (Int × T))
    (fc : FreqChoice T) (hf : from_items items = some fc)
    (x : Int) (hx0 : 0 ≤ x) (hxt : x < fc.total) :
    (sample_at fc x).isSome := by
  obtain ⟨hs, hlt⟩ := table_sample_at hf hxt
  rw [hs, List.getElem?_eq_getElem hlt]
  rfl

theorem C5_witness :
    (sample_at (⟨[(3, "a"), (4, "b")], 4⟩ : FreqChoice String) 3).isSome :=
  C5_lookup_safety [((3 : Int), "a"), (1, "b")] ⟨[(3, "a"), (4, "b")], 4⟩
    rfl 3 (by decide) (by decide)

/-- C7: every table returned by `from_items` satisfies the data-model
invariant: non-empty data, non-decreasing cumulative weights, each entry's
cumulative weight is the sum of the supplied weights up to and including
its item (and the entry stores that item), `total` is the last entry's
cumulative weight, and `total > 0`. -/
theorem C7_table_invariant {T : Type} (items : List (Int × T))
    (fc : FreqChoice T) (hf : from_items items = some fc) :
    fc.data ≠ [] ∧
    (∀ i j, i ≤ j → j < fc.data.length → cum fc.data i ≤ cum fc.data j) ∧
    (∀ (i : Nat) (p : Int × T), fc.data[i]? = some p →
      p.1 = ((items.take (i + 1)).map Prod.fst).sum ∧
        (items[i]?).map Prod.snd = some p.2) ∧
    (∃ q, fc.data.getLast? = some q ∧ q.1 = fc.total) ∧
    0 < fc.total := by
  have hne := table_data_ne_nil hf
  have hlen : 0 < fc.data.length := List.length_pos.mpr hne
  refine ⟨hne, table_mono hf, ?_, ?_, ?_⟩
  · intro i p hp
    obtain ⟨hnn, hpos, hdata, htot⟩ := from_items_some_inv hf
    rw [hdata, scanFreq_getElem?] at hp
    cases hq : items[i]? with
    | none => rw [hq] at hp; cases hp
    | some q =>
      rw [hq] at hp
      simp only [Option.map_some', Option.some.injEq] at hp
      obtain rfl := hp
      exact ⟨by simp [psum], rfl⟩
  · have hlast : fc.data.length - 1 < fc.data.length := by omega
    refine ⟨fc.data[fc.data.length - 1], ?_, ?_⟩
    · rw [List.getLast?_eq_getElem? _, List.getElem?_eq_getElem (by omega)]
    · rw [← cum_eq_getElem (by omega), table_cum_last hf]
  · have h := from_items_some_inv hf
    rw [h.2.2.2]
    exact h.2.1

theorem C7_witness :
    (⟨[(3, "a"), (4, "b")], 4⟩ : FreqChoice String).data ≠ [] ∧
      0 < (⟨[(3, "a"), (4, "b")], 4⟩ : FreqChoice String).total := by
  have h := C7_table_invariant [((3 : Int), "a"), (1, "b")]
    ⟨[(3, "a"), (4, "b")], 4⟩ rfl
  exact ⟨h.1, h.2.2.2.2⟩

/-- C9: `sample_at` is a pure function of the table state and the offset:
the embedding of `fn sample_at(&self, x: N) -> T` (shared borrow, no
mutation) is a mathematical function, so two calls with identical offsets
on the same table return identical results. -/
theorem C9_pure_lookup {T : Type} (fc : FreqChoice T) (x : Int)
    (t1 t2 : Option T) (h1 : sample_at fc x = t1)
    (h2 : sample_at fc x = t2) : t1 = t2 :=
  h1.symm.trans h2

theorem C9_witness : (some "a" : Option String) = some "a" :=
  C9_pure_lookup (⟨[(3, "a"), (4, "b")], 4⟩ : FreqChoice String) 0
    (some "a") (some "a") rfl rfl

/-- C2: items yielded by a `UniqueSampler` stream are pairwise distinct:
whatever the underlying sampler, generator, requested count and
false-positive oracle, any completed `k`-step run yields a duplicate-free
list, because the membership structure has zero false negatives (an
inserted element always tests positive in `check_and_set`). -/
theorem C2_uniqueness {σ α : Type} [DecidableEq α]
    (source : σ → α × σ) (fuel : Nat) (fp : List α → α → Bool)
    (count : Nat) (rng : σ) (k : Nat) (outs : List (Option α))
    (st2 : UniqueSampler σ α)
    (h : UniqueSampler.run source fuel k (UniqueSampler.new fp count rng)
      = some (outs, st2)) :
    (outs.filterMap id).Nodup :=
  (run_spec source fuel k _ outs st2 h).1

theorem C2_witness :
    (([some 0, some 1] : List (Option Nat)).filterMap id).Nodup :=
  C2_uniqueness (fun s => (s, s + 1)) 1 (fun _ _ => false) 2 0 2
    [some 0, some 1] ⟨⟨[1, 0], fun _ _ => false⟩, 0, 2⟩ (by rfl)

/-- C6: a `UniqueSampler` built for `count` yields exactly `count` items
once fully drained (the number of yields equals the drop of `remaining`
to zero), and once `remaining = 0` every further `next` returns `None`
with the state unchanged — idempotently, without touching the underlying
sampler or generator. -/
theorem C6_exhaustion {σ α : Type} [DecidableEq α] (source : σ → α × σ)
    (fuel : Nat) :
    (∀ st : UniqueSampler σ α, st.remaining = 0 →
      UniqueSampler.next source fuel st = some (none, st)) ∧
    (∀ (fp : List α → α → Bool) (count : Nat) (rng : σ) (k : Nat)
        (outs : List (Option α)) (st2 : UniqueSampler σ α),
      UniqueSampler.run source fuel k (UniqueSampler.new fp count rng)
          = some (outs, st2) → st2.remaining = 0 →
        (outs.filterMap id).length = count) := by
  constructor
  · intro st h
    unfold UniqueSampler.next
    rw [if_pos h]
  · intro fp count rng k outs st2 h h0
    have h4 := (run_spec source fuel k _ outs st2 h).2.2.2
    simp only [UniqueSampler.new] at h4
    omega

theorem C6_witness :
    UniqueSampler.next (fun s => (s, s + 1)) 1
        (⟨⟨[1, 0], fun _ _ => false⟩, 0, 2⟩ : UniqueSampler Nat Nat)
      = some (none, ⟨⟨[1, 0], fun _ _ => false⟩, 0, 2⟩) ∧
    (([some 0, some 1] : List (Option Nat)).filterMap id).length = 2 := by
  have h := C6_exhaustion (fun s : Nat => (s, s + 1)) 1
  exact ⟨h.1 ⟨⟨[1, 0], fun _ _ => false⟩, 0, 2⟩ rfl,
    h.2 (fun _ _ => false) 2 0 2 [some 0, some 1]
      ⟨⟨[1, 0], fun _ _ => false⟩, 0, 2⟩ rfl rfl⟩

/-- C10: a `UniqueSampler` created with `count = 0` is exhausted from the
start: construction succeeds, every step of any run yields `None`, the
state (filter, counter, generator) never changes — in particular the
underlying sampler is never invoked, as the generator state is returned
untouched for every choice of `source`. -/
theorem C10_zero_count {σ α : Type} [DecidableEq α] (source : σ → α × σ)
    (fuel : Nat) (fp : List α → α → Bool) (rng : σ) (k : Nat) :
    UniqueSampler.run source fuel k (UniqueSampler.new fp 0 rng)
      = some (List.replicate k none, UniqueSampler.new fp 0 rng) := by
  induction k with
  | zero => rfl
  | succ k ih =>
    have hnext : UniqueSampler.next source fuel (UniqueSampler.new fp 0 rng)
        = some (none, UniqueSampler.new fp 0 rng) := by
      simp [UniqueSampler.next, UniqueSampler.new]
    simp only [UniqueSampler.run]
    rw [hnext]
    dsimp only
    rw [ih]
    rw [List.replicate_succ]

/-- C8: `SamplerPair::sample_using` draws from its first sampler, then
from its second with the generator state left by the first, and applies
the combiner with the first draw as first argument; in particular the
one-item tables `[(1, "Jane")]` and `[(1, "Doe")]` combined with
space-concatenation always sample `"Jane Doe"` under any generator
meeting the `gen_range` contract. -/
theorem C8_pair_combiner :
    (∀ (σ α β γ : Type) (first : σ → Option α × σ)
        (second : σ → Option β × σ) (combiner : α → β → γ)
        (s s1 s2 : σ) (a : α) (b : β),
      first s = (some a, s1) → second s1 = (some b, s2) →
      SamplerPair.sample_using first second combiner s
        = (some (combiner a b), s2)) ∧
    (∀ (σ : Type) (r : Rng σ), RngValid r →
      ∀ (s : σ) (jane doe : FreqChoice String),
        from_items [((1 : Int), "Jane")] = some jane →
        from_items [((1 : Int), "Doe")] = some doe →
        (SamplerPair.sample_using (jane.sample_using r) (doe.sample_using r)
          (fun a b => a ++ " " ++ b) s).1 = some "Jane Doe") := by
  constructor
  · intro σ α β γ first second combiner s s1 s2 a b h1 h2
    unfold SamplerPair.sample_using
    rw [h1]
    dsimp only
    rw [h2]
  · intro σ r hr s jane doe hj hd
    have hjv : jane = ⟨[(1, "Jane")], 1⟩ := by
      have he : from_items [((1 : Int), "Jane")]
          = some (⟨[(1, "Jane")], 1⟩ : FreqChoice String) := rfl
      rw [he] at hj
      exact (Option.some.inj hj).symm
    have hdv : doe = ⟨[(1, "Doe")], 1⟩ := by
      have he : from_items [((1 : Int), "Doe")]
          = some (⟨[(1, "Doe")], 1⟩ : FreqChoice String) := rfl
      rw [he] at hd
      exact (Option.some.inj hd).symm
    subst hjv
    subst hdv
    have hfirst : FreqChoice.sample_using (⟨[(1, "Jane")], 1⟩ : FreqChoice String) r s
        = (some "Jane", (r.gen_range 0 1 s).2) := by
      unfold FreqChoice.sample_using
      dsimp only
      have hx : (r.gen_range 0 1 s).1 = 0 := by
        obtain ⟨hlo, hhi⟩ := hr 0 1 s (by norm_num)
        omega
      rw [hx]
      rfl
    have hsecond : FreqChoice.sample_using (⟨[(1, "Doe")], 1⟩ : FreqChoice String) r
          ((r.gen_range 0 1 s).2)
        = (some "Doe", (r.gen_range 0 1 ((r.gen_range 0 1 s).2)).2) := by
      unfold FreqChoice.sample_using
      dsimp only
      have hx : (r.gen_range 0 1 ((r.gen_range 0 1 s).2)).1 = 0 := by
        obtain ⟨hlo, hhi⟩ := hr 0 1 ((r.gen_range 0 1 s).2) (by norm_num)
        omega
      rw [hx]
      rfl
    unfold SamplerPair.sample_using
    rw [hfirst]
    dsimp only
    rw [hsecond]
    rfl

theorem C8_witness :
    SamplerPair.sample_using (fun s : Unit => (some 1, s))
        (fun s : Unit => (some 2, s)) (fun a b : Nat => a + b) ()
      = (some 3, ()) ∧
    (SamplerPair.sample_using
        (FreqChoice.sample_using (⟨[(1, "Jane")], 1⟩ : FreqChoice String)
          ⟨fun lo _ s => (lo, s)⟩)
        (FreqChoice.sample_using (⟨[(1, "Doe")], 1⟩ : FreqChoice String)
          ⟨fun lo _ s => (lo, s)⟩)
        (fun a b => a ++ " " ++ b) ()).1 = some "Jane Doe" := by
  constructor
  · exact C8_pair_combiner.1 Unit Nat Nat Nat _ _ _ () () () 1 2 rfl rfl
  · exact C8_pair_combiner.2 Unit ⟨fun lo _ s => (lo, s)⟩
      (fun lo hi s hlt => ⟨le_refl lo, hlt⟩) () _ _ rfl rfl

/-- C4 counterexample: the claim says the two failure modes are reported
as distinct errors (`NegativeWeight`, `EmptyOrNonPositive`); but
`from_items` returns a bare `Option`, and its result on a negative-weight
input is literally identical to its result on the empty input — `none`
both times, carrying no error — whereas the spec-modelled `buildSpec`
does distinguish them. -/
theorem C4_counterexample :
    from_items [((-1 : Int), "x")] = from_items ([] : List (Int × String)) ∧
    from_items ([] : List (Int × String)) = none ∧
    buildSpec [((-1 : Int), "x")]
      = Except.error ConstructionError.NegativeWeight ∧
    buildSpec ([] : List (Int × String))
      = Except.error ConstructionError.EmptyOrNonPositive := by
  refine ⟨?_, ?_, ?_, ?_⟩ <;> rfl

/-- C4 amended: for every input with some negative weight, or whose
weights sum to `≤ 0` (including the empty input), `from_items` fails and
returns no table — it returns `None`, without reporting which of the two
failure conditions occurred. -/
theorem C4_build_rejection {T : Type} (items : List (Int × T))
    (h : (∃ p ∈ items, p.1 < 0) ∨ (items.map Prod.fst).sum ≤ 0) :
    from_items items = none := by
  by_cases hneg : ∃ p ∈ items, p.1 < 0
  · unfold from_items
    rw [from_items_loop_neg items hneg 0 []]
  · push_neg at hneg
    have hnn : ∀ p ∈ items, 0 ≤ p.1 := hneg
    rcases h with hx | hsum
    · obtain ⟨p, hp, hplt⟩ := hx
      exact absurd (hnn p hp) (by omega)
    · rw [from_items_eq_of_nonneg items hnn, if_pos hsum]

theorem C4_witness : from_items [((0 : Int), "x")] = none :=
  C4_build_rejection [((0 : Int), "x")] (Or.inr (by decide))

end JaneDoe
